import Mathlib

/-!
Verification of the bootcamps controller (`src/api/controllers/bootcamps.js`)
against its specification.  The controller's request/response logic is embedded
shallowly: the query-string rewriting is modelled at the character level
exactly as the JS `String.replace` with the regex `\b(gt|gte|lt|lte|in)\b`
performs it, JSON serialization of the query object is modelled by
`stringifyL`, and each handler becomes a pure function from its inputs
(request parameters, the document store, results of external calls) to an
outcome record that captures the response and the calls made to external
collaborators (`find`, `remove`, `mv`, `findByIdAndUpdate`).
-/

/-- A character counts as a word character for the JS regex `\b` boundary
(no `u` flag): ASCII letters, digits, and underscore. -/
def isWordChar (c : Char) : Bool := c.isAlphanum || c == '_'

/-- The trailing `\b` of the keyword regex holds iff the remaining input is
empty or starts with a non-word character. -/
def boundaryAfter : List Char → Bool
  | [] => true
  | c :: _ => !isWordChar c

/-- Strip an explicit prefix from a character list, returning the remainder. -/
def stripPrefixL : List Char → List Char → Option (List Char)
  | [], cs => some cs
  | _ :: _, [] => none
  | k :: ks, c :: cs => if c = k then stripPrefixL ks cs else none

/-- Try one keyword alternative at the head of `cs`, requiring the trailing
word boundary of `\b(gt|gte|lt|lte|in)\b`. -/
def tryKw (kw cs : List Char) : Option (List Char × List Char) :=
  match stripPrefixL kw cs with
  | some rest => if boundaryAfter rest then some (kw, rest) else none
  | none => none

def gteK : List Char := ['g', 't', 'e']

def gtK : List Char := ['g', 't']

def lteK : List Char := ['l', 't', 'e']

def ltK : List Char := ['l', 't']

def inK : List Char := ['i', 'n']

/-- The bare comparison keywords of the rewriting regex in
`getBootcamps` (line 26 of the controller). -/
def opKws : List (List Char) := [gteK, gtK, lteK, ltK, inK]

/-- Match the alternation `gt|gte|lt|lte|in` (with its trailing `\b`) at the
head of `cs`.  The alternatives are mutually exclusive once the trailing
boundary is required, so trying the longer spelling first agrees with the JS
leftmost-alternative semantics. -/
def matchKw (cs : List Char) : Option (List Char × List Char) :=
  opKws.findSome? (fun kw => tryKw kw cs)

/-- Fuel-indexed left-to-right scanner for
`queryStr.replace(/\b(gt|gte|lt|lte|in)\b/g, (match) => "$" + match)`
(lines 26-29 of the controller).  `p` records whether the previous character
was a word character; a keyword match additionally requires the leading `\b`,
i.e. `p = false`, since every keyword starts with a word character. -/
def replaceOpsFuel : Nat → Bool → List Char → List Char
  | 0, _, cs => cs
  | _ + 1, _, [] => []
  | fuel + 1, p, c :: cs =>
    match (if p then none else matchKw (c :: cs)) with
    | some (kw, rest) => '$' :: (kw ++ replaceOpsFuel fuel true rest)
    | none => c :: replaceOpsFuel fuel (isWordChar c) cs

/-- The operator rewriting on a character list; the fuel `cs.length` always
suffices because every scanner step consumes at least one character. -/
def replW (p : Bool) (cs : List Char) : List Char := replaceOpsFuel cs.length p cs

/-- Decides whether the scanner finds at least one keyword occurrence. -/
def hasOpMatchAux : Bool → List Char → Bool
  | _, [] => false
  | p, c :: cs =>
    match (if p then none else matchKw (c :: cs)) with
    | some _ => true
    | none => hasOpMatchAux (isWordChar c) cs

/-- `true` iff the string contains a word-bounded occurrence of one of the
keywords `gt`, `gte`, `lt`, `lte`, `in`. -/
def hasOpMatch (cs : List Char) : Bool := hasOpMatchAux false cs

mutual
inductive Json where
  | str : String → Json
  | obj : JFields → Json
  | arr : JElems → Json
inductive JFields where
  | nil : JFields
  | cons : String → Json → JFields → JFields
inductive JElems where
  | nil : JElems
  | cons : Json → JElems → JElems
end

/-- JSON serialization of a string whose characters need no escaping. -/
def quoteL (s : List Char) : List Char := '\"' :: s ++ ['\"']

mutual
/-- `JSON.stringify` on query values (objects, arrays, and plain strings, the
shapes produced by the express query-string parser). -/
def stringifyL : Json → List Char
  | .str s => quoteL s.data
  | .obj fs => '\x7b' :: stringifyObj fs ++ ['\x7d']
  | .arr es => '[' :: stringifyArr es ++ [']']
def stringifyObj : JFields → List Char
  | .nil => []
  | .cons k v .nil => quoteL k.data ++ ':' :: stringifyL v
  | .cons k v (.cons k' v' fs) =>
      quoteL k.data ++ ':' :: stringifyL v ++ ',' :: stringifyObj (.cons k' v' fs)
def stringifyArr : JElems → List Char
  | .nil => []
  | .cons e .nil => stringifyL e
  | .cons e (.cons e' es) => stringifyL e ++ ',' :: stringifyArr (.cons e' es)
end

mutual
/-- Structural counterpart of the string-level rewriting: apply the keyword
rewriting to every object key and every string value. -/
def jsonMapOps : Json → Json
  | .str s => .str ⟨replW false s.data⟩
  | .obj fs => .obj (jsonMapFields fs)
  | .arr es => .arr (jsonMapElems es)
def jsonMapFields : JFields → JFields
  | .nil => .nil
  | .cons k v fs => .cons ⟨replW false k.data⟩ (jsonMapOps v) (jsonMapFields fs)
def jsonMapElems : JElems → JElems
  | .nil => .nil
  | .cons e es => .cons (jsonMapOps e) (jsonMapElems es)
end

/-- The top-level keys of a query object. -/
def fieldKeys : JFields → List String
  | .nil => []
  | .cons k _ fs => k :: fieldKeys fs

/-- The control keys excluded from the filter
(`const removeFields = ['select', 'sort', 'page', 'limit']`). -/
def removeFields : List String := ["select", "sort", "page", "limit"]

/-- `removeFields.forEach((param) => delete reqQuery[param])` applied to the
shallow copy of `req.query`: drop the four control keys at top level. -/
def cleanFields : JFields → JFields
  | .nil => .nil
  | .cons k v fs =>
      if removeFields.contains k then cleanFields fs else .cons k v (cleanFields fs)

/-- `let queryStr = JSON.stringify(reqQuery)` after the control keys have been
deleted. -/
def queryStrOf (q : JFields) : List Char := stringifyL (.obj (cleanFields q))

/-- The characters handed to `JSON.parse` and then to `Bootcamp.find`: the
serialized query after the operator rewriting. -/
def findFilterStr (q : JFields) : List Char := replW false (queryStrOf q)

/-- Property access `req.query[key]` on the (unmodified) query object. -/
def lookupQ : JFields → String → Option Json
  | .nil, _ => none
  | .cons k v fs, key => if k = key then some v else lookupQ fs key

/-- JS whitespace skipped by `parseInt`. -/
def isJsSpace (c : Char) : Bool :=
  c == ' ' || c == '\t' || c == '\n' || c == '\r' || c == '\x0b' || c == '\x0c'

/-- Value of a maximal digit prefix. -/
def digitsToNat (ds : List Char) : Nat :=
  ds.foldl (fun a c => a * 10 + (c.toNat - 48)) 0

/-- Parse the longest leading digit run; `none` models `NaN`. -/
def jsParseIntCore (cs : List Char) : Option Int :=
  let ds := cs.takeWhile Char.isDigit
  if ds.isEmpty then none else some ((digitsToNat ds : Nat) : Int)

/-- `parseInt(s, 10)`: skip whitespace, optional sign, longest digit prefix;
`none` models `NaN` (no digits at all). -/
def jsParseInt (s : String) : Option Int :=
  match s.data.dropWhile isJsSpace with
  | '-' :: rest => (jsParseIntCore rest).map (fun n => -n)
  | '+' :: rest => jsParseIntCore rest
  | cs => jsParseIntCore cs

/-- `parseInt(req.query[key], 10)`: a missing key or a non-string value
yields `NaN` in the cases the model covers. -/
def queryNum (q : JFields) (key : String) : Option Int :=
  match lookupQ q key with
  | some (.str s) => jsParseInt s
  | _ => none

/-- The JS idiom `x || d` on numbers: `NaN` and `0` are falsy. -/
def jsOrInt (v : Option Int) (d : Int) : Int :=
  match v with
  | none => d
  | some n => if n = 0 then d else n

/-- `const page = parseInt(req.query.page, 10) || 1`. -/
def pageOf (q : JFields) : Int := jsOrInt (queryNum q "page") 1

/-- `const limit = parseInt(req.query.limit, 10) || 20`. -/
def limitOf (q : JFields) : Int := jsOrInt (queryNum q "limit") 20

/-- `const startIndex = (page - 1) * limit`. -/
def startIndexOf (q : JFields) : Int := (pageOf q - 1) * limitOf q

/-- `const endIndex = page * limit`. -/
def endIndexOf (q : JFields) : Int := pageOf q * limitOf q

structure PageRef where
  page : Int
  limit : Int
deriving DecidableEq

/-- The `pagination` object of the list response: each entry is present only
under its guard. -/
structure Pagination where
  next : Option PageRef
  prev : Option PageRef
deriving DecidableEq

/-- The pagination object assembled at lines 62-76 of the controller. -/
def paginationOf (q : JFields) (total : Nat) : Pagination where
  next := if endIndexOf q < (total : Int) then some ⟨pageOf q + 1, limitOf q⟩ else none
  prev := if 0 < startIndexOf q then some ⟨pageOf q - 1, limitOf q⟩ else none

/-- `s.replace(/,/g, ' ')`. -/
def commaToSpace (s : String) : String :=
  ⟨s.data.map (fun c => if c == ',' then ' ' else c)⟩

/-- The sort argument: `req.query.sort` comma-to-space when present and
truthy, else the default `-createdAt`. -/
def sortByOf (q : JFields) : String :=
  match lookupQ q "sort" with
  | some (.str s) => if s = "" then "-createdAt" else commaToSpace s
  | _ => "-createdAt"

/-- The projection argument: `req.query.select` comma-to-space when present
and truthy. -/
def selectOf (q : JFields) : Option String :=
  match lookupQ q "select" with
  | some (.str s) => if s = "" then none else some (commaToSpace s)
  | _ => none

/-- `Bootcamp.countDocuments`: with no filter argument it counts the whole
collection. -/
def countDocuments {α : Type} (store : List α) (filt : Option (α → Bool)) : Nat :=
  match filt with
  | none => store.length
  | some f => (store.filter f).length

/-- Everything the list handler computes: the find filter, the query
modifiers, the pagination data, and the response fields. -/
structure ListOutcome (α : Type) where
  filterStr : List Char
  selectArg : Option String
  sortArg : String
  skip : Int
  limitArg : Int
  total : Nat
  success : Bool
  msg : String
  count : Nat
  pagination : Pagination
  data : List α

/-- The `getBootcamps` handler.  `find` abstracts the data store's query
execution on the rewritten filter string. -/
def getBootcamps {α : Type} (find : List Char → List α) (store : List α)
    (q : JFields) : ListOutcome α :=
  let filterStr := findFilterStr q
  let bootcamps := find filterStr
  let total := countDocuments store none
  { filterStr := filterStr
    selectArg := selectOf q
    sortArg := sortByOf q
    skip := startIndexOf q
    limitArg := limitOf q
    total := total
    success := true
    msg := "Show all bootcamps."
    count := bootcamps.length
    pagination := paginationOf q total
    data := bootcamps }

/-- A geocoder result entry (the fields the handler reads). -/
structure GeoLoc where
  latitude : ℚ
  longitude : ℚ
deriving DecidableEq

/-- The `$centerSphere` argument of the spatial `find` call:
`[[lng, lat], radius]`. -/
structure SphereQuery where
  center : List ℚ
  radius : ℚ
deriving DecidableEq

/-- A runtime failure inside a handler that the `asyncHandler` wrapper
forwards to the centralized error middleware. -/
inductive JsError where
  | typeError : JsError
deriving DecidableEq

/-- The geo handler's success envelope. -/
structure GeoResponse (α : Type) where
  status : Nat
  success : Bool
  count : Nat
  data : List α

/-- What the geo-radius handler did: the spatial query issued to `find`
(if any) and the response or propagated failure. -/
structure GeoOutcome (α : Type) where
  findArg : Option SphereQuery
  response : Except JsError (GeoResponse α)

/-- The `getBootcampsByDistance` handler.  `geoResults` is the list returned
by `geocoder.geocode(zipcode)`; reading `location[0].latitude` on an empty
list dereferences `undefined` and throws, so no spatial query is issued. -/
def getBootcampsByDistance {α : Type} (find : SphereQuery → List α)
    (geoResults : List GeoLoc) (distance : ℚ) : GeoOutcome α :=
  match geoResults.head? with
  | none => { findArg := none, response := .error .typeError }
  | some loc =>
    let radius := distance / 6378
    let sq : SphereQuery := ⟨[loc.longitude, loc.latitude], radius⟩
    let bootcamps := find sq
    { findArg := some sq
      response := .ok ⟨200, true, bootcamps.length, bootcamps⟩ }

/-- A stored bootcamp document: its id plus its other fields, viewed as a
partial map from field names to values. -/
structure BDoc where
  id : String
  attrs : String → Option String

/-- The `(message, statusCode)` pair handed to the `ErrorResponse`
constructor. -/
structure ErrResp where
  message : String
  statusCode : Nat
deriving DecidableEq

/-- `Bootcamp.findById(req.params.id)`. -/
def findById (store : List BDoc) (i : String) : Option BDoc :=
  store.find? (fun b => b.id == i)

/-- The 404 message used by every by-id handler. -/
def notFoundMsg (i : String) : String := "Bootcamp not found with id of " ++ i

/-- `sub` occurs as a contiguous substring of `s`. -/
def strContains (s sub : String) : Prop := ∃ pre post, s = pre ++ sub ++ post

/-- The delete handler's success envelope; its `data` is a JSON value
(the empty object on this route). -/
structure DelResponse where
  status : Nat
  success : Bool
  msg : String
  data : Json

/-- What the delete handler did: whether `bootcamp.remove()` ran, the store
afterwards, and the response. -/
structure DeleteOutcome where
  removeCalled : Bool
  store' : List BDoc
  response : Except ErrResp DelResponse

/-- The `deleteBootcamp` handler.  `bootcamp.remove()` is the model layer's
document removal, modelled as dropping the documents with the given id. -/
def deleteBootcamp (store : List BDoc) (i : String) : DeleteOutcome :=
  match findById store i with
  | none => ⟨false, store, .error ⟨notFoundMsg i, 404⟩⟩
  | some _ =>
    ⟨true, store.filter (fun b => !(b.id == i)),
      .ok ⟨200, true, "Deleted a bootcamp. ID: " ++ i, .obj .nil⟩⟩

/-- The uploaded file as exposed by the upload middleware. -/
structure UploadFile where
  name : String
  mimetype : String
  size : Int

/-- `file.mimetype.startsWith('image')`, at the character level. -/
def strStartsWith (s pre : String) : Bool := pre.data.isPrefixOf s.data

/-- `path.parse(name).ext`: the suffix from the last dot on, empty when there
is no dot or the only dot is the leading character. -/
def jsPathExt (s : String) : String :=
  let cs := s.data
  let afterR := cs.reverse.takeWhile (fun c => !(c == '.'))
  if afterR.length = cs.length then ""
  else if afterR.length + 1 = cs.length then ""
  else ⟨'.' :: afterR.reverse⟩

/-- `dateStr.split('.').join('')`: removing every dot. -/
def removeDots (s : String) : String := ⟨s.data.filter (fun c => !(c == '.'))⟩

/-- The generated photo filename (line 220 of the controller):
`BOOTCAMP_<id>_<date with separators removed><original extension>`. -/
def photoFileName (i dateStr origName : String) : String :=
  "BOOTCAMP_" ++ i ++ "_" ++ removeDots dateStr ++ jsPathExt origName

/-- The n-th decimal digit character. -/
def digitChar (n : Nat) : Char := Char.ofNat (48 + n % 10)

/-- Modelled from the spec: `new Date().toLocaleDateString('lv-LV')` is not
part of the repository; per the spec it renders the current date as two-digit
day, two-digit month, and four-digit year joined by dots (so that removing
the separators leaves exactly 8 digits). -/
def lvDateString (d m y : Nat) : String :=
  ⟨[digitChar (d / 10), digitChar d, '.', digitChar (m / 10), digitChar m, '.',
    digitChar (y / 1000), digitChar (y / 100), digitChar (y / 10), digitChar y]⟩

/-- The upload handler's success envelope (`data` carries the filename). -/
structure UploadResponse where
  status : Nat
  success : Bool
  msg : String
  data : String
deriving DecidableEq

/-- What the upload handler did: the destination handed to `file.mv` (if it
was invoked), the `(id, update document)` handed to `findByIdAndUpdate` (if
reached), and the response. -/
structure UploadOutcome where
  mvDest : Option String
  updateArg : Option (String × List (String × String))
  response : Except ErrResp UploadResponse

/-- The size-limit message (the JS division is on coerced numbers; only the
400 status and the guard matter to the claims). -/
def sizeErrMsg (maxLimit : Int) : String :=
  "Please upload an image less than " ++ toString (maxLimit / 1000000) ++ "mb."

/-- The `bootcampUploadPhoto` handler.  `maxLimit` is the numeric view of
`process.env.FILE_MAX_UPLOAD_LIMIT`, `uploadPath` is
`process.env.FILE_UPLOAD_PATH`, `dateStr` is the locale-rendered current
date, and `mvFails` tells whether the asynchronous `file.mv` reports an
error to its callback. -/
def bootcampUploadPhoto (store : List BDoc) (i : String) (files : Option UploadFile)
    (maxLimit : Int) (uploadPath : String) (dateStr : String) (mvFails : Bool) :
    UploadOutcome :=
  match findById store i with
  | none => ⟨none, none, .error ⟨notFoundMsg i, 404⟩⟩
  | some b =>
    match files with
    | none => ⟨none, none, .error ⟨"Please upload a file.", 400⟩⟩
    | some file =>
      if !(strStartsWith file.mimetype "image") then
        ⟨none, none, .error ⟨"Please upload an image file.", 400⟩⟩
      else if maxLimit < file.size then
        ⟨none, none, .error ⟨sizeErrMsg maxLimit, 400⟩⟩
      else
        let newName := photoFileName b.id dateStr file.name
        let dest := uploadPath ++ "/" ++ newName
        if mvFails then
          ⟨some dest, none, .error ⟨"Problem with file upload. Try again later.", 500⟩⟩
        else
          ⟨some dest, some (i, [("photo", newName)]),
            .ok ⟨200, true, "Uploaded photo succesfully.", newName⟩⟩

/-- Modelled from the spec: `Bootcamp.findByIdAndUpdate(id, doc)` on the model
layer sets exactly the fields listed in the update document and leaves every
other field of the stored document unchanged. -/
def applyUpdateDoc (b : BDoc) (upd : List (String × String)) : BDoc :=
  { b with attrs := fun k =>
      match upd.find? (fun p => p.1 == k) with
      | some p => some p.2
      | none => b.attrs k }

theorem stripPrefixL_length {kw cs r : List Char} (h : stripPrefixL kw cs = some r) :
    r.length + kw.length = cs.length := by
  induction kw generalizing cs with
  | nil =>
    simp [stripPrefixL] at h
    simp [h]
  | cons k ks ih =>
    cases cs with
    | nil => simp [stripPrefixL] at h
    | cons c cs' =>
      rw [stripPrefixL] at h
      split at h
      · have := ih h
        simp only [List.length_cons]
        omega
      · exact absurd h (by simp)

theorem tryKw_some {kw cs k r : List Char} (h : tryKw kw cs = some (k, r)) :
    k = kw ∧ stripPrefixL kw cs = some r ∧ boundaryAfter r = true := by
  unfold tryKw at h
  cases hs : stripPrefixL kw cs with
  | none => rw [hs] at h; simp at h
  | some rest =>
    rw [hs] at h
    dsimp only at h
    by_cases hb : boundaryAfter rest = true
    · rw [if_pos hb] at h
      simp only [Option.some.injEq, Prod.mk.injEq] at h
      obtain ⟨hk, hr⟩ := h
      subst hk
      subst hr
      exact ⟨rfl, rfl, hb⟩
    · rw [if_neg hb] at h
      simp at h

theorem matchKw_some {cs kw r : List Char} (h : matchKw cs = some (kw, r)) :
    kw ∈ opKws ∧ stripPrefixL kw cs = some r ∧ boundaryAfter r = true := by
  unfold matchKw at h
  have general : ∀ l : List (List Char),
      l.findSome? (fun k0 => tryKw k0 cs) = some (kw, r) →
      kw ∈ l ∧ stripPrefixL kw cs = some r ∧ boundaryAfter r = true := by
    intro l
    induction l with
    | nil => intro h0; simp [List.findSome?] at h0
    | cons a l ih =>
      intro h0
      rw [List.findSome?] at h0
      cases ha : tryKw a cs with
      | some p =>
        rw [ha] at h0
        cases h0
        obtain ⟨hk, hs, hb⟩ := tryKw_some ha
        subst hk
        exact ⟨by simp, hs, hb⟩
      | none =>
        rw [ha] at h0
        obtain ⟨hmem, hs, hb⟩ := ih h0
        exact ⟨by simp [hmem], hs, hb⟩
  exact general opKws h

theorem matchKw_length {cs kw r : List Char} (h : matchKw cs = some (kw, r)) :
    r.length < cs.length := by
  obtain ⟨hmem, hs, _⟩ := matchKw_some h
  have hlen := stripPrefixL_length hs
  have hk : 2 ≤ kw.length := by
    simp [opKws, gteK, gtK, lteK, ltK, inK] at hmem
    rcases hmem with h1 | h1 | h1 | h1 | h1 <;> subst h1 <;> decide
  omega

theorem replaceOpsFuel_nilInput (f : Nat) (p : Bool) : replaceOpsFuel f p [] = [] := by
  cases f <;> rfl

theorem replaceOpsFuel_succ_true (n : Nat) (c : Char) (cs : List Char) :
    replaceOpsFuel (n + 1) true (c :: cs) = c :: replaceOpsFuel n (isWordChar c) cs := rfl

theorem replaceOpsFuel_succ_some {c : Char} {cs kw rest : List Char} (n : Nat)
    (h : matchKw (c :: cs) = some (kw, rest)) :
    replaceOpsFuel (n + 1) false (c :: cs) = '$' :: (kw ++ replaceOpsFuel n true rest) := by
  have step : replaceOpsFuel (n + 1) false (c :: cs)
      = match matchKw (c :: cs) with
        | some (kw, rest) => '$' :: (kw ++ replaceOpsFuel n true rest)
        | none => c :: replaceOpsFuel n (isWordChar c) cs := rfl
  rw [step, h]

theorem replaceOpsFuel_succ_none {c : Char} {cs : List Char} (n : Nat)
    (h : matchKw (c :: cs) = none) :
    replaceOpsFuel (n + 1) false (c :: cs) = c :: replaceOpsFuel n (isWordChar c) cs := by
  have step : replaceOpsFuel (n + 1) false (c :: cs)
      = match matchKw (c :: cs) with
        | some (kw, rest) => '$' :: (kw ++ replaceOpsFuel n true rest)
        | none => c :: replaceOpsFuel n (isWordChar c) cs := rfl
  rw [step, h]

theorem replaceOpsFuel_congr :
    ∀ (f1 f2 : Nat) (p : Bool) (cs : List Char), cs.length ≤ f1 → cs.length ≤ f2 →
      replaceOpsFuel f1 p cs = replaceOpsFuel f2 p cs := by
  intro f1
  induction f1 with
  | zero =>
    intro f2 p cs h1 _
    have : cs = [] := List.length_eq_zero.mp (Nat.le_zero.mp h1)
    subst this
    rw [replaceOpsFuel_nilInput, replaceOpsFuel_nilInput]
  | succ n ih =>
    intro f2 p cs h1 h2
    cases cs with
    | nil => rw [replaceOpsFuel_nilInput, replaceOpsFuel_nilInput]
    | cons c cs' =>
      cases f2 with
      | zero => simp at h2
      | succ m =>
        have hlen : cs'.length ≤ n := by simp at h1; omega
        have hlenm : cs'.length ≤ m := by simp at h2; omega
        cases p with
        | true =>
          rw [replaceOpsFuel_succ_true, replaceOpsFuel_succ_true,
            ih m (isWordChar c) cs' hlen hlenm]
        | false =>
          cases hmk : matchKw (c :: cs') with
          | some pr =>
            obtain ⟨kw, rest⟩ := pr
            have hr : rest.length < cs'.length + 1 := matchKw_length hmk
            rw [replaceOpsFuel_succ_some n hmk, replaceOpsFuel_succ_some m hmk,
              ih m true rest (by omega) (by omega)]
          | none =>
            rw [replaceOpsFuel_succ_none n hmk, replaceOpsFuel_succ_none m hmk,
              ih m (isWordChar c) cs' hlen hlenm]

theorem replW_nil (p : Bool) : replW p [] = [] := rfl

theorem replW_cons_true (c : Char) (cs : List Char) :
    replW true (c :: cs) = c :: replW (isWordChar c) cs := rfl

theorem replW_cons_some {c : Char} {cs kw rest : List Char}
    (h : matchKw (c :: cs) = some (kw, rest)) :
    replW false (c :: cs) = '$' :: (kw ++ replW true rest) := by
  unfold replW
  rw [show (c :: cs).length = cs.length + 1 from rfl, replaceOpsFuel_succ_some cs.length h]
  have hr : rest.length < cs.length + 1 := matchKw_length h
  rw [replaceOpsFuel_congr cs.length rest.length true rest (by omega) (le_refl _)]

theorem replW_cons_none {c : Char} {cs : List Char} (h : matchKw (c :: cs) = none)
    (p : Bool) : replW p (c :: cs) = c :: replW (isWordChar c) cs := by
  cases p with
  | true => exact replW_cons_true c cs
  | false =>
    unfold replW
    rw [show (c :: cs).length = cs.length + 1 from rfl, replaceOpsFuel_succ_none cs.length h]

theorem ne_of_isWordChar {c k : Char} (hc : isWordChar c = false)
    (hk : isWordChar k = true) : c ≠ k := by
  intro h
  rw [h, hk] at hc
  exact Bool.true_eq_false.mp hc

theorem tryKw_nonword_head {c k : Char} (hc : isWordChar c = false)
    (hk : isWordChar k = true) (ks cs : List Char) :
    tryKw (k :: ks) (c :: cs) = none := by
  unfold tryKw
  rw [stripPrefixL, if_neg (ne_of_isWordChar hc hk)]

theorem matchKw_nonword {c : Char} (hc : isWordChar c = false) (cs : List Char) :
    matchKw (c :: cs) = none := by
  unfold matchKw opKws gteK gtK lteK ltK inK
  simp only [List.findSome?]
  rw [tryKw_nonword_head hc (by decide), tryKw_nonword_head hc (by decide),
    tryKw_nonword_head hc (by decide), tryKw_nonword_head hc (by decide),
    tryKw_nonword_head hc (by decide)]

theorem boundaryAfter_append {c : Char} (hc : isWordChar c = false)
    (r u : List Char) : boundaryAfter (r ++ c :: u) = boundaryAfter r := by
  cases r with
  | nil => simp [boundaryAfter, hc]
  | cons d r' => rfl

theorem stripPrefixL_append {c : Char} (hc : isWordChar c = false) :
    ∀ (kw t u : List Char), kw.all isWordChar = true →
      stripPrefixL kw (t ++ c :: u) = Option.map (· ++ c :: u) (stripPrefixL kw t) := by
  intro kw
  induction kw with
  | nil => intro t u _; simp [stripPrefixL]
  | cons k ks ih =>
    intro t u hall
    simp only [List.all_cons, Bool.and_eq_true] at hall
    cases t with
    | nil =>
      simp only [List.nil_append]
      have hl : stripPrefixL (k :: ks) (c :: u) = none := by
        rw [stripPrefixL, if_neg (ne_of_isWordChar hc hall.1)]
      rw [hl]
      rfl
    | cons a t' =>
      simp only [List.cons_append]
      rw [stripPrefixL, stripPrefixL]
      by_cases hak : a = k
      · rw [if_pos hak, if_pos hak, ih t' u hall.2]
      · rw [if_neg hak, if_neg hak]
        rfl

theorem tryKw_append {c : Char} (hc : isWordChar c = false) {kw : List Char}
    (hall : kw.all isWordChar = true) (t u : List Char) :
    tryKw kw (t ++ c :: u) = Option.map (fun p => (p.1, p.2 ++ c :: u)) (tryKw kw t) := by
  unfold tryKw
  rw [stripPrefixL_append hc kw t u hall]
  cases hs : stripPrefixL kw t with
  | none => rfl
  | some r =>
    dsimp only [Option.map_some']
    rw [boundaryAfter_append hc]
    by_cases hb : boundaryAfter r = true
    · rw [if_pos hb, if_pos hb]
      rfl
    · rw [if_neg hb, if_neg hb]
      rfl

theorem matchKw_append {c : Char} (hc : isWordChar c = false) (t u : List Char) :
    matchKw (t ++ c :: u) = Option.map (fun p => (p.1, p.2 ++ c :: u)) (matchKw t) := by
  unfold matchKw
  have general : ∀ l : List (List Char), (∀ k ∈ l, k.all isWordChar = true) →
      l.findSome? (fun kw => tryKw kw (t ++ c :: u))
        = Option.map (fun p => (p.1, p.2 ++ c :: u)) (l.findSome? (fun kw => tryKw kw t)) := by
    intro l hl
    induction l with
    | nil => simp [List.findSome?]
    | cons a l ih =>
      rw [List.findSome?, List.findSome?, tryKw_append hc (hl a (by simp)) t u]
      cases tryKw a t with
      | some p => rfl
      | none => exact ih (fun k hk => hl k (by simp [hk]))
  exact general opKws (by decide)

theorem replW_append_split {c : Char} (hc : isWordChar c = false) :
    ∀ (n : Nat) (t : List Char), t.length ≤ n → ∀ (p : Bool) (u : List Char),
      replW p (t ++ c :: u) = replW p t ++ c :: replW false u := by
  intro n
  induction n with
  | zero =>
    intro t ht p u
    have : t = [] := List.length_eq_zero.mp (Nat.le_zero.mp ht)
    subst this
    simp only [List.nil_append, replW_nil]
    cases p with
    | true => rw [replW_cons_true, hc]
    | false => rw [replW_cons_none (matchKw_nonword hc u) false, hc]
  | succ n ih =>
    intro t ht p u
    cases t with
    | nil =>
      simp only [List.nil_append, replW_nil]
      cases p with
      | true => rw [replW_cons_true, hc]
      | false => rw [replW_cons_none (matchKw_nonword hc u) false, hc]
    | cons a t' =>
      have ht' : t'.length ≤ n := by simp at ht; omega
      simp only [List.cons_append]
      cases p with
      | true =>
        rw [replW_cons_true, replW_cons_true, ih t' ht' (isWordChar a) u]
        rfl
      | false =>
        cases hm : matchKw (a :: t') with
        | some pr =>
          obtain ⟨kw, r⟩ := pr
          have hlong : matchKw (a :: (t' ++ c :: u)) = some (kw, r ++ c :: u) := by
            show matchKw ((a :: t') ++ c :: u) = _
            rw [matchKw_append hc (a :: t') u, hm]
            rfl
          have hr : r.length ≤ n := by
            have := matchKw_length hm
            simp at this
            omega
          rw [replW_cons_some hlong, replW_cons_some hm, ih r hr true u]
          simp
        | none =>
          have hlong : matchKw (a :: (t' ++ c :: u)) = none := by
            show matchKw ((a :: t') ++ c :: u) = _
            rw [matchKw_append hc (a :: t') u, hm]
            rfl
          rw [replW_cons_none hlong false, replW_cons_none hm false,
            ih t' ht' (isWordChar a) u]
          rfl

theorem replW_split {c : Char} (hc : isWordChar c = false) (t u : List Char) (p : Bool) :
    replW p (t ++ c :: u) = replW p t ++ c :: replW false u :=
  replW_append_split hc t.length t (le_refl _) p u

theorem replW_cons_nonword {c : Char} (hc : isWordChar c = false) (cs : List Char)
    (p : Bool) : replW p (c :: cs) = c :: replW false cs := by
  have h := replW_split hc [] cs p
  simpa using h

mutual
theorem replW_stringify : (j : Json) →
    replW false (stringifyL j) = stringifyL (jsonMapOps j)
  | .str s => by
    have h1 : stringifyL (Json.str s) = '\"' :: (s.data ++ '\"' :: []) := rfl
    have h2 : stringifyL (jsonMapOps (Json.str s))
        = '\"' :: (replW false s.data ++ '\"' :: []) := rfl
    rw [h1, h2, replW_cons_nonword (by decide) _ false,
      replW_split (by decide) s.data [] false, replW_nil]
  | .obj fs => by
    have h1 : stringifyL (Json.obj fs)
        = '\x7b' :: (stringifyObj fs ++ '\x7d' :: []) := rfl
    have h2 : stringifyL (jsonMapOps (Json.obj fs))
        = '\x7b' :: (stringifyObj (jsonMapFields fs) ++ '\x7d' :: []) := rfl
    rw [h1, h2, replW_cons_nonword (by decide) _ false,
      replW_split (by decide) (stringifyObj fs) [] false, replW_nil,
      replW_stringifyObj fs]
  | .arr es => by
    have h1 : stringifyL (Json.arr es)
        = '[' :: (stringifyArr es ++ ']' :: []) := rfl
    have h2 : stringifyL (jsonMapOps (Json.arr es))
        = '[' :: (stringifyArr (jsonMapElems es) ++ ']' :: []) := rfl
    rw [h1, h2, replW_cons_nonword (by decide) _ false,
      replW_split (by decide) (stringifyArr es) [] false, replW_nil,
      replW_stringifyArr es]
theorem replW_stringifyObj : (fs : JFields) →
    replW false (stringifyObj fs) = stringifyObj (jsonMapFields fs)
  | .nil => rfl
  | .cons k v .nil => by
    have h1 : stringifyObj (.cons k v .nil)
        = '\"' :: (k.data ++ '\"' :: (':' :: stringifyL v)) := by
      simp [stringifyObj, quoteL]
    have h2 : stringifyObj (jsonMapFields (.cons k v .nil))
        = '\"' :: (replW false k.data ++ '\"' :: (':' :: stringifyL (jsonMapOps v))) := by
      simp [jsonMapFields, stringifyObj, quoteL]
    rw [h1, h2, replW_cons_nonword (by decide) _ false,
      replW_split (by decide) k.data (':' :: stringifyL v) false,
      replW_cons_nonword (by decide) (stringifyL v) false,
      replW_stringify v]
  | .cons k v (.cons k' v' fs) => by
    have h1 : stringifyObj (.cons k v (.cons k' v' fs))
        = '\"' :: (k.data ++ '\"' ::
            (':' :: (stringifyL v ++ ',' :: stringifyObj (.cons k' v' fs)))) := by
      simp [stringifyObj, quoteL]
    have h2 : stringifyObj (jsonMapFields (.cons k v (.cons k' v' fs)))
        = '\"' :: (replW false k.data ++ '\"' ::
            (':' :: (stringifyL (jsonMapOps v) ++ ','
              :: stringifyObj (jsonMapFields (.cons k' v' fs))))) := by
      simp [jsonMapFields, stringifyObj, quoteL]
    rw [h1, h2, replW_cons_nonword (by decide) _ false,
      replW_split (by decide) k.data _ false,
      replW_cons_nonword (by decide) _ false,
      replW_split (by decide) (stringifyL v) _ false,
      replW_stringify v, replW_stringifyObj (.cons k' v' fs)]
theorem replW_stringifyArr : (es : JElems) →
    replW false (stringifyArr es) = stringifyArr (jsonMapElems es)
  | .nil => rfl
  | .cons e .nil => by
    have h1 : stringifyArr (.cons e .nil) = stringifyL e := rfl
    have h2 : stringifyArr (jsonMapElems (.cons e .nil)) = stringifyL (jsonMapOps e) := rfl
    rw [h1, h2, replW_stringify e]
  | .cons e (.cons e' es) => by
    have h1 : stringifyArr (.cons e (.cons e' es))
        = stringifyL e ++ ',' :: stringifyArr (.cons e' es) := rfl
    have h2 : stringifyArr (jsonMapElems (.cons e (.cons e' es)))
        = stringifyL (jsonMapOps e) ++ ',' :: stringifyArr (jsonMapElems (.cons e' es)) := rfl
    rw [h1, h2, replW_split (by decide) (stringifyL e) _ false,
      replW_stringify e, replW_stringifyArr (.cons e' es)]
end

theorem replW_of_no_match : ∀ (cs : List Char) (p : Bool),
    hasOpMatchAux p cs = false → replW p cs = cs := by
  intro cs
  induction cs with
  | nil => intro p _; rfl
  | cons c cs' ih =>
    intro p h
    cases p with
    | true =>
      have h' : hasOpMatchAux (isWordChar c) cs' = false := by
        rw [show hasOpMatchAux true (c :: cs')
            = hasOpMatchAux (isWordChar c) cs' from rfl] at h
        exact h
      rw [replW_cons_true, ih _ h']
    | false =>
      have step : hasOpMatchAux false (c :: cs')
          = match matchKw (c :: cs') with
            | some _ => true
            | none => hasOpMatchAux (isWordChar c) cs' := rfl
      cases hm : matchKw (c :: cs') with
      | some pr =>
        rw [step, hm] at h
        exact absurd h (by simp)
      | none =>
        rw [step, hm] at h
        rw [replW_cons_none hm, ih _ h]

theorem replW_eq_or_dollar : ∀ (cs : List Char) (p : Bool),
    replW p cs = cs ∨ '$' ∈ replW p cs := by
  intro cs
  induction cs with
  | nil => intro p; left; rfl
  | cons c cs' ih =>
    intro p
    cases p with
    | true =>
      rw [replW_cons_true]
      rcases ih (isWordChar c) with h | h
      · left; rw [h]
      · right; exact List.mem_cons_of_mem c h
    | false =>
      cases hm : matchKw (c :: cs') with
      | some pr =>
        obtain ⟨kw, rest⟩ := pr
        rw [replW_cons_some hm]
        right
        exact List.mem_cons_self _ _
      | none =>
        rw [replW_cons_none hm]
        rcases ih (isWordChar c) with h | h
        · left; rw [h]
        · right; exact List.mem_cons_of_mem c h

theorem fieldKeys_jsonMapFields : (fs : JFields) →
    fieldKeys (jsonMapFields fs)
      = (fieldKeys fs).map (fun k => String.mk (replW false k.data))
  | .nil => rfl
  | .cons k v fs => by
    simp [jsonMapFields, fieldKeys, fieldKeys_jsonMapFields fs]

theorem fieldKeys_cleanFields : (fs : JFields) →
    fieldKeys (cleanFields fs)
      = (fieldKeys fs).filter (fun k => !(removeFields.contains k))
  | .nil => rfl
  | .cons k0 v fs => by
    by_cases hr : k0 ∈ removeFields
    · simp [cleanFields, fieldKeys, hr, fieldKeys_cleanFields fs]
    · simp [cleanFields, fieldKeys, hr, fieldKeys_cleanFields fs]

theorem fieldKeys_cleanFields_not_removed (fs : JFields) :
    ∀ k ∈ fieldKeys (cleanFields fs), removeFields.contains k = false := by
  intro k hk
  rw [fieldKeys_cleanFields fs] at hk
  have := List.of_mem_filter hk
  simpa using this

theorem digitChar_ne_dot (n : Nat) : (!(digitChar n == '.')) = true := by
  unfold digitChar
  set k := n % 10 with hk
  have h : k < 10 := hk ▸ Nat.mod_lt n (by norm_num)
  interval_cases k <;> decide

theorem digitChar_isDigit (n : Nat) : (digitChar n).isDigit = true := by
  unfold digitChar
  set k := n % 10 with hk
  have h : k < 10 := hk ▸ Nat.mod_lt n (by norm_num)
  interval_cases k <;> decide

theorem removeDots_lvDate (d m y : Nat) :
    (removeDots (lvDateString d m y)).data
      = [digitChar (d / 10), digitChar d, digitChar (m / 10), digitChar m,
         digitChar (y / 1000), digitChar (y / 100), digitChar (y / 10), digitChar y] := by
  unfold removeDots lvDateString
  simp [List.filter, digitChar_ne_dot]

theorem removeDots_lvDate_length (d m y : Nat) :
    (removeDots (lvDateString d m y)).length = 8 := by
  show (removeDots (lvDateString d m y)).data.length = 8
  rw [removeDots_lvDate]
  rfl

theorem removeDots_lvDate_digits (d m y : Nat) :
    ((removeDots (lvDateString d m y)).data.all Char.isDigit) = true := by
  rw [removeDots_lvDate]
  simp [digitChar_isDigit]

/-- A query whose only pair is `name=in`: its single key is not a keyword,
yet the rewriting still alters the filter (inside the value). -/
def nameInQ : JFields := .cons "name" (.str "in") .nil

/-- C1, counterexample.  On the query `name=in` no object key is one of the
keywords, so by the claim the rewriting should leave the filter untouched;
the code nevertheless rewrites the string value, producing
`{"name":"$in"}`. -/
theorem getBootcamps_rewrite_alters_value :
    (∀ k ∈ fieldKeys (cleanFields nameInQ), k.data ∉ opKws)
    ∧ findFilterStr nameInQ ≠ queryStrOf nameInQ
    ∧ findFilterStr nameInQ = "\x7b\"name\":\"$in\"\x7d".data := by decide

/-- C1, amended.  The rewriting of `getBootcamps` prefixes `$` to every
word-bounded occurrence of `gt`, `gte`, `lt`, `lte`, `in` in the serialized
filter — object keys and string values alike: the string handed to the data
store's `find` is exactly the serialization of the filter with the rewriting
applied to each key and each string value, a bare keyword rewrites to its
`$`-form, and any string with no word-bounded keyword occurrence is left
unchanged. -/
theorem getBootcamps_rewrites_keywords (q : JFields) :
    findFilterStr q = stringifyL (.obj (jsonMapFields (cleanFields q)))
    ∧ (∀ kw ∈ opKws, replW false kw = '$' :: kw)
    ∧ (∀ s : List Char, hasOpMatch s = false → replW false s = s) := by
  refine ⟨?_, by decide, ?_⟩
  · unfold findFilterStr queryStrOf
    rw [replW_stringify (.obj (cleanFields q))]
    rfl
  · intro s h
    exact replW_of_no_match s false h

theorem getBootcamps_rewrites_keywords_witness :
    replW false gteK = '$' :: gteK ∧ replW false "price".data = "price".data :=
  ⟨(getBootcamps_rewrites_keywords JFields.nil).2.1 gteK (by decide),
    (getBootcamps_rewrites_keywords JFields.nil).2.2 "price".data (by decide)⟩

/-- A query whose only pair is `in=5`: the key `in` is not one of the four
control keys, yet it is not retained verbatim in the filter. -/
def inKeyQ : JFields := .cons "in" (.str "5") .nil

/-- C4, counterexample.  `in` is not among the removed control keys, so by
the claim the pair `in=5` should be retained in the filter; the rewriting
turns the key into `$in`, so the filter is `{"$in":"5"}` and the original
pair is gone. -/
theorem getBootcamps_pair_not_retained :
    ("in" : String) ∉ removeFields
    ∧ findFilterStr inKeyQ = "\x7b\"$in\":\"5\"\x7d".data
    ∧ findFilterStr inKeyQ ≠ queryStrOf inKeyQ := by decide

/-- C4, amended.  The four control keys `select`, `sort`, `page`, `limit` are
deleted from the copied query before serialization: the filter handed to
`find` is the serialization of the remaining pairs (keys and values subjected
to the keyword rewriting of C1), the surviving top-level keys are exactly the
non-control keys in order, no control key survives the deletion, and no
control key can appear among the filter's top-level keys after the rewriting
either. -/
theorem getBootcamps_strips_control_keys (q : JFields) :
    findFilterStr q = stringifyL (.obj (jsonMapFields (cleanFields q)))
    ∧ fieldKeys (cleanFields q)
        = (fieldKeys q).filter (fun k => !(removeFields.contains k))
    ∧ (∀ k ∈ fieldKeys (cleanFields q), removeFields.contains k = false)
    ∧ fieldKeys (jsonMapFields (cleanFields q))
        = (fieldKeys (cleanFields q)).map (fun k => String.mk (replW false k.data))
    ∧ (∀ k ∈ fieldKeys (jsonMapFields (cleanFields q)), k ∉ removeFields) := by
  refine ⟨?_, fieldKeys_cleanFields q, fieldKeys_cleanFields_not_removed q,
    fieldKeys_jsonMapFields (cleanFields q), ?_⟩
  · unfold findFilterStr queryStrOf
    rw [replW_stringify (.obj (cleanFields q))]
    rfl
  · intro k hk hmem
    rw [fieldKeys_jsonMapFields (cleanFields q)] at hk
    obtain ⟨k0, hk0, hkeq⟩ := List.mem_map.mp hk
    subst hkeq
    have hcf := fieldKeys_cleanFields_not_removed q k0 hk0
    rcases replW_eq_or_dollar k0.data false with he | hd
    · rw [he] at hmem
      have hk0mem : k0 ∈ removeFields := hmem
      simp [removeFields] at hk0mem
      rcases hk0mem with h | h | h | h <;> subst h <;> exact absurd hcf (by decide)
    · simp [removeFields] at hmem
      rcases hmem with h | h | h | h <;>
        · have hl := congrArg String.data h
          dsimp only at hl
          rw [hl] at hd
          exact absurd hd (by decide)

theorem getBootcamps_strips_control_keys_witness :
    ("city" : String) ∉ removeFields :=
  (getBootcamps_strips_control_keys (.cons "city" (.str "x") .nil)).2.2.2.2
    "city" (by decide)

/-- A request with `page=2&limit=-5`: the page is greater than 1 but the
computed `startIndex` is negative, so no `prev` entry is produced. -/
def prevQ : JFields := .cons "page" (.str "2") (.cons "limit" (.str "-5") .nil)

/-- C2, counterexample.  For `page=2&limit=-5` (total 100) the claim demands
a `prev` entry since p > 1, but the code guards `prev` by
`startIndex > 0` and `(2-1)*(-5) = -5`, so no `prev` entry appears. -/
theorem pagination_prev_counterexample :
    1 < pageOf prevQ ∧ (paginationOf prevQ 100).prev = none := by decide

/-- C2, amended.  With p the page (default 1) and l the limit (default 20),
the pagination object has a `next` entry iff `p*l < total` (exactly the
claim) and a `prev` entry iff `(p-1)*l > 0` — which coincides with `p > 1`
whenever the limit is positive, but not for negative limits. -/
theorem isSome_ite {α : Type} (c : Prop) [Decidable c] (x : α) :
    (if c then some x else none).isSome = true ↔ c := by
  by_cases h : c
  · simp [h]
  · simp [h]

theorem pagination_guards (q : JFields) (total : Nat) :
    ((paginationOf q total).next.isSome ↔ pageOf q * limitOf q < (total : Int))
    ∧ ((paginationOf q total).prev.isSome ↔ 0 < (pageOf q - 1) * limitOf q)
    ∧ (0 < limitOf q → ((paginationOf q total).prev.isSome ↔ 1 < pageOf q))
    ∧ (lookupQ q "page" = none → pageOf q = 1)
    ∧ (lookupQ q "limit" = none → limitOf q = 20) := by
  refine ⟨?_, ?_, ?_, ?_, ?_⟩
  · unfold paginationOf
    dsimp only
    rw [isSome_ite]
    exact Iff.rfl
  · unfold paginationOf
    dsimp only
    rw [isSome_ite]
    exact Iff.rfl
  · intro hl
    unfold paginationOf
    dsimp only
    rw [isSome_ite]
    show 0 < startIndexOf q ↔ 1 < pageOf q
    unfold startIndexOf
    rw [mul_pos_iff]
    constructor
    · rintro (⟨h1, _⟩ | ⟨_, h2⟩) <;> omega
    · intro h
      exact Or.inl ⟨by omega, hl⟩
  · intro h
    simp [pageOf, queryNum, h, jsOrInt]
  · intro h
    simp [limitOf, queryNum, h, jsOrInt]

theorem pagination_guards_witness :
    ((paginationOf JFields.nil 5).prev.isSome ↔ 1 < pageOf JFields.nil)
    ∧ pageOf JFields.nil = 1 ∧ limitOf JFields.nil = 20 :=
  ⟨(pagination_guards JFields.nil 5).2.2.1 (by decide),
    (pagination_guards JFields.nil 5).2.2.2.1 rfl,
    (pagination_guards JFields.nil 5).2.2.2.2 rfl⟩

/-- C3.  The `total` that decides whether a `next` page exists comes from
`Bootcamp.countDocuments()` with no filter argument: it is the size of the
whole collection, identical for any two query strings, even though the `data`
of the very same response does depend on the rewritten filter. -/
theorem getBootcamps_total_unfiltered {α : Type} (find : List Char → List α)
    (store : List α) (q q' : JFields) :
    (getBootcamps find store q).total = countDocuments store none
    ∧ countDocuments store none = store.length
    ∧ (getBootcamps find store q).total = (getBootcamps find store q').total
    ∧ (getBootcamps find store q).pagination
        = paginationOf q ((getBootcamps find store q).total)
    ∧ (getBootcamps find store q).data = find (findFilterStr q) :=
  ⟨rfl, rfl, rfl, rfl, rfl⟩

/-- C5.  The geo-radius handler divides the distance parameter by the Earth
radius constant 6378 and centers the spherical cap at `[longitude, latitude]`
of the first geocoder result; in particular, for latitude 34.0, longitude
-118.2 and distance 10 the spatial query is over center `[-118.2, 34.0]`
with radius exactly `10/6378`. -/
theorem getBootcampsByDistance_radius {α : Type} (find : SphereQuery → List α)
    (loc : GeoLoc) (rest : List GeoLoc) (distance : ℚ) :
    (getBootcampsByDistance find (loc :: rest) distance).findArg
        = some ⟨[loc.longitude, loc.latitude], distance / 6378⟩
    ∧ (getBootcampsByDistance find (⟨34, -118.2⟩ :: rest) 10).findArg
        = some ⟨[-118.2, 34], 10 / 6378⟩ :=
  ⟨rfl, rfl⟩

/-- C9.  `getBootcampsByDistance` reads `location[0]` without a guard: when
the geocoder returns at least one result the handler issues the spatial
query and responds with a 200 envelope, and when it returns an empty list
the dereference fails before any spatial query is issued, the handler
produces no envelope, and the failure propagates to the error middleware. -/
theorem getBootcampsByDistance_unguarded {α : Type} (find : SphereQuery → List α)
    (geoResults : List GeoLoc) (distance : ℚ) :
    (geoResults = [] →
      (getBootcampsByDistance find geoResults distance).findArg = none
      ∧ (getBootcampsByDistance find geoResults distance).response
          = .error .typeError)
    ∧ (∀ loc rest, geoResults = loc :: rest →
      (getBootcampsByDistance find geoResults distance).findArg
          = some ⟨[loc.longitude, loc.latitude], distance / 6378⟩
      ∧ (getBootcampsByDistance find geoResults distance).response
          = .ok ⟨200, true,
              (find ⟨[loc.longitude, loc.latitude], distance / 6378⟩).length,
              find ⟨[loc.longitude, loc.latitude], distance / 6378⟩⟩) := by
  constructor
  · intro h
    subst h
    exact ⟨rfl, rfl⟩
  · intro loc rest h
    subst h
    exact ⟨rfl, rfl⟩

theorem getBootcampsByDistance_unguarded_witness :
    (getBootcampsByDistance (fun _ => ([] : List Nat)) [] 10).findArg = none
    ∧ (getBootcampsByDistance (fun _ => ([] : List Nat)) [] 10).response
        = .error .typeError :=
  (getBootcampsByDistance_unguarded (fun _ => ([] : List Nat)) [] 10).1 rfl

/-- C6.  Deleting a missing id produces a 404 `ErrorResponse` whose message
contains that id, `remove` is never invoked and the store is unchanged;
deleting an existing id invokes `remove` and responds 200 with the empty
object as `data`. -/
theorem deleteBootcamp_spec (store : List BDoc) (i : String) :
    (findById store i = none →
      (deleteBootcamp store i).removeCalled = false
      ∧ (deleteBootcamp store i).store' = store
      ∧ (deleteBootcamp store i).response = .error ⟨notFoundMsg i, 404⟩
      ∧ strContains (notFoundMsg i) i)
    ∧ (∀ b, findById store i = some b →
      (deleteBootcamp store i).removeCalled = true
      ∧ (deleteBootcamp store i).response
          = .ok ⟨200, true, "Deleted a bootcamp. ID: " ++ i, .obj .nil⟩) := by
  constructor
  · intro h
    unfold deleteBootcamp
    rw [h]
    exact ⟨rfl, rfl, rfl, "Bootcamp not found with id of ", "", by simp [notFoundMsg]⟩
  · intro b h
    unfold deleteBootcamp
    rw [h]
    exact ⟨rfl, rfl⟩

theorem deleteBootcamp_spec_witness :
    (deleteBootcamp [] "abc").removeCalled = false
    ∧ strContains (notFoundMsg "abc") "abc" := by
  have h := (deleteBootcamp_spec [] "abc").1 rfl
  exact ⟨h.1, h.2.2.2⟩

/-- C7.  When the entity exists and a file is attached whose MIME type does
not start with `image`, the upload handler responds with the 400
`ErrorResponse` and never invokes `file.mv`. -/
theorem bootcampUploadPhoto_rejects_non_image (store : List BDoc) (i : String)
    (file : UploadFile) (maxLimit : Int) (uploadPath dateStr : String)
    (mvFails : Bool) (b : BDoc) (hb : findById store i = some b)
    (hm : strStartsWith file.mimetype "image" = false) :
    (bootcampUploadPhoto store i (some file) maxLimit uploadPath dateStr mvFails).mvDest
        = none
    ∧ (bootcampUploadPhoto store i (some file) maxLimit uploadPath dateStr mvFails).response
        = .error ⟨"Please upload an image file.", 400⟩ := by
  unfold bootcampUploadPhoto
  rw [hb]
  dsimp only
  rw [hm]
  exact ⟨rfl, rfl⟩

def bdocW : BDoc := ⟨"1", fun _ => none⟩

theorem bootcampUploadPhoto_rejects_non_image_witness :
    (bootcampUploadPhoto [bdocW] "1" (some ⟨"a.txt", "text/plain", 1⟩)
        1000000 "/uploads" "05.01.2024" false).mvDest = none :=
  (bootcampUploadPhoto_rejects_non_image [bdocW] "1" ⟨"a.txt", "text/plain", 1⟩
    1000000 "/uploads" "05.01.2024" false bdocW rfl (by decide)).1

/-- C8.  On the all-checks-pass path the generated filename is exactly
`BOOTCAMP_`, the entity's id, `_`, the locale-rendered date with all dots
removed — eight digit characters — and the original file's extension. -/
theorem bootcampUploadPhoto_filename (store : List BDoc) (i : String)
    (file : UploadFile) (maxLimit : Int) (uploadPath : String) (d m y : Nat)
    (b : BDoc) (hb : findById store i = some b)
    (hm : strStartsWith file.mimetype "image" = true)
    (hs : file.size ≤ maxLimit) :
    (bootcampUploadPhoto store i (some file) maxLimit uploadPath
        (lvDateString d m y) false).response
      = .ok ⟨200, true, "Uploaded photo succesfully.",
          "BOOTCAMP_" ++ b.id ++ "_" ++ removeDots (lvDateString d m y)
            ++ jsPathExt file.name⟩
    ∧ (removeDots (lvDateString d m y)).length = 8
    ∧ ((removeDots (lvDateString d m y)).data.all Char.isDigit) = true := by
  refine ⟨?_, removeDots_lvDate_length d m y, removeDots_lvDate_digits d m y⟩
  unfold bootcampUploadPhoto
  rw [hb]
  dsimp only
  rw [hm, if_neg (not_lt.mpr hs)]
  rfl

theorem bootcampUploadPhoto_filename_witness :
    (bootcampUploadPhoto [bdocW] "1" (some ⟨"a.jpg", "image/jpeg", 5⟩)
        1000000 "/uploads" (lvDateString 5 1 2024) false).response
      = .ok ⟨200, true, "Uploaded photo succesfully.",
          "BOOTCAMP_" ++ bdocW.id ++ "_" ++ removeDots (lvDateString 5 1 2024)
            ++ jsPathExt "a.jpg"⟩
    ∧ (removeDots (lvDateString 5 1 2024)).length = 8 := by
  have h := bootcampUploadPhoto_filename [bdocW] "1" ⟨"a.jpg", "image/jpeg", 5⟩
    1000000 "/uploads" 5 1 2024 bdocW rfl (by decide) (by decide)
  exact ⟨h.1, h.2.1⟩

/-- C10.  On a successful move the persistence step passes exactly the
single-field update document `{ photo: <filename> }` to `findByIdAndUpdate`
for the requested id, so applying it changes the stored document's `photo`
field to the filename and leaves its id and every other field unchanged. -/
theorem bootcampUploadPhoto_updates_only_photo (store : List BDoc) (i : String)
    (file : UploadFile) (maxLimit : Int) (uploadPath dateStr : String) (b : BDoc)
    (hb : findById store i = some b)
    (hm : strStartsWith file.mimetype "image" = true)
    (hs : file.size ≤ maxLimit) :
    (bootcampUploadPhoto store i (some file) maxLimit uploadPath dateStr false).updateArg
        = some (i, [("photo", photoFileName b.id dateStr file.name)])
    ∧ (∀ k : String, k ≠ "photo" →
        (applyUpdateDoc b [("photo", photoFileName b.id dateStr file.name)]).attrs k
          = b.attrs k)
    ∧ (applyUpdateDoc b [("photo", photoFileName b.id dateStr file.name)]).attrs "photo"
        = some (photoFileName b.id dateStr file.name)
    ∧ (applyUpdateDoc b [("photo", photoFileName b.id dateStr file.name)]).id = b.id := by
  refine ⟨?_, ?_, rfl, rfl⟩
  · unfold bootcampUploadPhoto
    rw [hb]
    dsimp only
    rw [hm, if_neg (not_lt.mpr hs)]
    rfl
  · intro k hk
    unfold applyUpdateDoc
    dsimp only
    rw [List.find?]
    rw [show (("photo", photoFileName b.id dateStr file.name).1 == k) = false from
      beq_eq_false_iff_ne.mpr (fun he => hk (he.symm))]
    rfl

theorem bootcampUploadPhoto_updates_only_photo_witness :
    (bootcampUploadPhoto [bdocW] "1" (some ⟨"a.jpg", "image/jpeg", 5⟩)
        1000000 "/uploads" "05.01.2024" false).updateArg
      = some ("1", [("photo", photoFileName bdocW.id "05.01.2024" "a.jpg")])
    ∧ (applyUpdateDoc bdocW [("photo", photoFileName bdocW.id "05.01.2024" "a.jpg")]).attrs
        "name" = bdocW.attrs "name" := by
  have h := bootcampUploadPhoto_updates_only_photo [bdocW] "1" ⟨"a.jpg", "image/jpeg", 5⟩
    1000000 "/uploads" "05.01.2024" bdocW rfl (by decide) (by decide)
  exact ⟨h.1, h.2.1 "name" (by decide)⟩
